import Mathlib

/-!
Verification development for the acme-rag-api document store and snippet
formatting code.

The Python sources are shallowly embedded:

* `app/common/utils.py` / `app/routers/retrieve.py` snippet helpers become
  functions on `List Char` (Python strings are sequences of code points, and
  `len`, slicing, `rfind`, `rstrip` all act on code points).
* `app/services/store.py` (`StoreService`) becomes explicit state passing on a
  `StoreState` record.  The FAISS index is modelled as the list of stored
  vectors; `index.search` — an external capability — is a function parameter
  (`oracle`).  Distances are exact rationals.  Side effects that the spec
  talks about (embedding calls, persistence writes, hash computations) are
  returned in an explicit `AddEffects` record.
* `app/routers/retrieve.py`'s result post-processing (snippet formatting,
  the re-sort by `(-score, doc_id)` and truncation) becomes `retrieve`.

Python's float comparison `last_space > max_length * 0.7` is modelled as the
exact integer comparison `last_space * 10 > max_length * 7`.  At the default
`max_length = 160` this is faithful bit-for-bit: the IEEE-754 double product
`160 * 0.7` rounds to exactly `112.0`, and `last_space` is an integer, so the
Python comparison is exactly `last_space > 112`.
-/

/-- Whitespace as Python's `str.split` / `str.strip` / `str.rstrip` see it
(ASCII part; the exotic Unicode whitespace code points are irrelevant to the
claims and omitted). -/
def isPySpace (c : Char) : Bool :=
  c = ' ' || c = '\t' || c = '\n' || c = '\r' || c = '\x0b' || c = '\x0c'

/-- Helper for `pySplit`: `acc` holds the current in-progress word, reversed. -/
def splitAux : List Char → List Char → List (List Char)
  | [], acc => if acc.isEmpty then [] else [acc.reverse]
  | c :: cs, acc =>
    if isPySpace c then
      if acc.isEmpty then splitAux cs [] else acc.reverse :: splitAux cs []
    else
      splitAux cs (c :: acc)

/-- Python `content.split()` (no argument): split on runs of whitespace,
discarding empty tokens. -/
def pySplit (s : List Char) : List (List Char) :=
  splitAux s []

/-- Python `" ".join(ws)`. -/
def joinSpace : List (List Char) → List Char
  | [] => []
  | [w] => w
  | w :: v :: ws => w ++ ' ' :: joinSpace (v :: ws)

/-- `_normalize_text` (utils.py lines 9-11): `" ".join(content.split())`. -/
def normalize_text (s : List Char) : List Char :=
  joinSpace (pySplit s)

/-- Python `text.rstrip()`: remove trailing whitespace. -/
def pyRstrip (s : List Char) : List Char :=
  (s.reverse.dropWhile isPySpace).reverse

/-- Python `text.rfind(" ")`: the largest index holding a space, `-1` when
there is none. -/
def rfindSpace (s : List Char) : Int :=
  match s.reverse.findIdx? (fun c => c = ' ') with
  | some i => (s.length : Int) - 1 - (i : Int)
  | none => -1

/-- `SNIPPET_MAX_LENGTH` (config.py, default 160). -/
def SNIPPET_MAX_LENGTH : Nat := 160

/-- `_truncate_at_word_boundary` (utils.py lines 14-26).  The threshold test
`last_space > max_length * 0.7` is the exact comparison
`last_space * 10 > max_length * 7`; see the header comment. -/
def truncate_at_word_boundary (text : List Char) (maxLength : Nat) : List Char :=
  let truncated := text.take maxLength
  let lastSpace := rfindSpace truncated
  if lastSpace * 10 > (maxLength : Int) * 7 then
    pyRstrip (truncated.take lastSpace.toNat)
  else
    pyRstrip truncated

/-- Character-level `format_snippet` (utils.py lines 29-47; the copy in
retrieve.py lines 31-59 computes the same function, with the single final
`rstrip` in place of one `rstrip` per branch). -/
def format_snippet_chars (content : List Char) (maxLength : Nat) : List Char :=
  let text := normalize_text content
  if text.length ≤ maxLength then text
  else truncate_at_word_boundary text maxLength

/-- `format_snippet` on Lean strings (Python `len`/slicing act on code points,
i.e. on `String.data`). -/
def format_snippet (content : String) (maxLength : Nat) : String :=
  ⟨format_snippet_chars content.data maxLength⟩

/-! ### The document store (`app/services/store.py`) -/

/-- One entry of `StoreService.metadata`, as built by `_create_metadata_entry`
(store.py lines 86-95).  The `index` field is the spec's `vector_handle`. -/
structure MetaEntry where
  doc_id : String
  hash : String
  language : String
  content : String
  index : Nat
deriving DecidableEq

/-- The mutable state of a `StoreService`: the FAISS index (modelled by the
list of vectors it holds, `none` while uninitialised) and the metadata list. -/
structure StoreState where
  index : Option (List (List ℚ))
  metadata : List MetaEntry
deriving DecidableEq

/-- External capabilities of the store: `hashlib.sha256(...).hexdigest()`,
`self.embedding_service.embed`, and the ingest router's language detection. -/
structure Env where
  hash : String → String
  embed : String → List ℚ
  detect : String → String

/-- Effect counters made explicit: how many content hashes were computed, how
many embedding calls were made, and how many `_save` persistence writes
happened during an operation. -/
structure AddEffects where
  hashCalls : Nat
  embedCalls : Nat
  saves : Nat
deriving DecidableEq

/-- Result dict of `StoreService.add`. -/
structure AddResult where
  doc_id : String
  hash : String
  added : Bool
deriving DecidableEq

/-- `StoreService._find_existing_content` (store.py lines 69-78): first
metadata entry whose `hash` equals `content_hash`. -/
def find_existing_content (st : StoreState) (contentHash : String) : Option MetaEntry :=
  st.metadata.find? (fun meta => meta.hash = contentHash)

/-- `StoreService._initialize_index_if_needed` (store.py lines 80-84): a fresh
`IndexFlatL2` holds no vectors. -/
def initialize_index_if_needed (st : StoreState) : StoreState :=
  match st.index with
  | none => { st with index := some [] }
  | some _ => st

/-- `StoreService._create_metadata_entry` (store.py lines 86-95):
`doc_id = f"{DOC_ID_PREFIX}{len(self.metadata)}"` with `DOC_ID_PREFIX`
defaulting to `"doc_"` (config.py line 59). -/
def create_metadata_entry (st : StoreState) (content language contentHash : String) :
    MetaEntry :=
  { doc_id := "doc_" ++ toString st.metadata.length
    hash := contentHash
    language := language
    content := content
    index := st.metadata.length }

/-- `StoreService.add` (store.py lines 97-133), with the resulting state and
the side effects returned explicitly.  The dedup branch performs one hash
computation and nothing else; the insert branch embeds, (lazily initialises
and) extends the index, appends the metadata entry and persists once. -/
def add (env : Env) (st : StoreState) (content language : String) :
    AddResult × StoreState × AddEffects :=
  let contentHash := env.hash content
  match find_existing_content st contentHash with
  | some existing =>
      ({ doc_id := existing.doc_id, hash := contentHash, added := false }, st,
        { hashCalls := 1, embedCalls := 0, saves := 0 })
  | none =>
      let embedding := env.embed content
      let st1 := initialize_index_if_needed st
      let st2 := { st1 with index := some (st1.index.getD [] ++ [embedding]) }
      let entry := create_metadata_entry st2 content language contentHash
      let st3 := { st2 with metadata := st2.metadata ++ [entry] }
      ({ doc_id := entry.doc_id, hash := contentHash, added := true }, st3,
        { hashCalls := 1, embedCalls := 1, saves := 1 })

/-- `StoreService.get_size` (store.py lines 182-184):
`len(self.metadata) if self.metadata else 0`, i.e. the metadata length. -/
def get_size (st : StoreState) : Nat :=
  st.metadata.length

/-- `SEARCH_K_MULTIPLIER` (config.py, default 2). -/
def SEARCH_K_MULTIPLIER : Nat := 2

/-- One entry of the list returned by `StoreService.search`, as built by
`_build_search_result` (store.py lines 139-146). -/
structure SearchResult where
  doc_id : String
  score : ℚ
  language : String
  content : String
deriving DecidableEq

/-- `StoreService._build_search_result`. -/
def build_search_result (meta : MetaEntry) (distance : ℚ) : SearchResult :=
  { doc_id := meta.doc_id
    score := distance
    language := meta.language
    content := meta.content }

/-- `StoreService._is_valid_index` (store.py lines 135-137):
`0 <= idx < len(self.metadata)` (FAISS reports indices as signed integers,
`-1` for padding slots). -/
def is_valid_index (st : StoreState) (idx : Int) : Bool :=
  0 ≤ idx && idx < (st.metadata.length : Int)

/-- The candidate filtering and joining loop of `StoreService.search`
(store.py lines 168-174): candidates whose index is invalid are skipped,
valid ones are joined with their metadata entry. -/
def search_candidate (st : StoreState) (cand : ℚ × Int) : Option SearchResult :=
  if is_valid_index st cand.2 then
    match st.metadata.get? cand.2.toNat with
    | some meta => some (build_search_result meta cand.1)
    | none => none
  else
    none

/-- The sort key of `results.sort(key=lambda x: (x["score"], x["doc_id"]))`
(store.py line 177): ascending lexicographic order on `(score, doc_id)`. -/
def resultLE (a b : SearchResult) : Prop :=
  a.score < b.score ∨ (a.score = b.score ∧ a.doc_id ≤ b.doc_id)

instance : DecidableRel resultLE := fun a b =>
  inferInstanceAs (Decidable (a.score < b.score ∨ (a.score = b.score ∧ a.doc_id ≤ b.doc_id)))

/-- `StoreService.search` (store.py lines 148-180).  `oracle` stands for the
FAISS capability `self.index.search`: given the query vector and the number
of neighbours requested it returns the `(distance, index)` pairs of
`zip(distances[0], indices[0])`. -/
def search (oracle : List ℚ → Nat → List (ℚ × Int)) (st : StoreState)
    (query : List ℚ) (k : Nat) : List SearchResult :=
  if st.index = none ∨ st.metadata.length = 0 then []
  else
    let searchK := min (k * SEARCH_K_MULTIPLIER) st.metadata.length
    let cands := oracle query searchK
    let results := cands.filterMap (search_candidate st)
    (List.insertionSort resultLE results).take k

/-! ### The retrieve endpoint (`app/routers/retrieve.py`) -/

/-- One `RetrieveResult` of the HTTP response (retrieve.py lines 18-24). -/
structure RetrieveResult where
  doc_id : String
  score : ℚ
  snippet : String
  language : String
deriving DecidableEq

/-- The sort key of `results.sort(key=lambda x: (-x.score, x.doc_id))`
(retrieve.py line 104): ascending lexicographic order on
`(-score, doc_id)`, i.e. descending on the score itself. -/
def retrieveLE (a b : RetrieveResult) : Prop :=
  b.score < a.score ∨ (a.score = b.score ∧ a.doc_id ≤ b.doc_id)

instance : DecidableRel retrieveLE := fun a b =>
  inferInstanceAs (Decidable (b.score < a.score ∨ (a.score = b.score ∧ a.doc_id ≤ b.doc_id)))

/-- The body of the `retrieve` endpoint after query validation (retrieve.py
lines 79-109): empty-corpus short circuit, query embedding, store search,
snippet formatting, the re-sort by `(-score, doc_id)` and truncation to `k`. -/
def retrieve (env : Env) (oracle : List ℚ → Nat → List (ℚ × Int))
    (st : StoreState) (query : String) (k : Nat) : List RetrieveResult :=
  if get_size st = 0 then []
  else
    let queryEmbedding := env.embed query
    let searchResults := search oracle st queryEmbedding k
    let results := searchResults.map (fun r =>
      { doc_id := r.doc_id
        score := r.score
        snippet := format_snippet r.content 160
        language := r.language })
    (List.insertionSort retrieveLE results).take k

/-! ### The ingest adapter (`app/routers/ingest.py`) -/

/-- Validation failure of `_process_content` (ingest.py line 24, HTTP 400
"Content is empty"; the spec calls it `EmptyContentError`). -/
inductive IngestError where
  | emptyContent
deriving DecidableEq

/-- `_process_content` (ingest.py lines 14-37) up to the store interaction:
content that is empty or entirely whitespace is rejected before language
detection and before `store.add`; otherwise the detected language and the
content go to `add`.  Python's `not text_content or not text_content.strip()`
holds exactly when every character is whitespace. -/
def process_content (env : Env) (st : StoreState) (content : String) :
    Except IngestError AddResult × StoreState × AddEffects :=
  if content.data.all isPySpace then
    (Except.error IngestError.emptyContent, st, { hashCalls := 0, embedCalls := 0, saves := 0 })
  else
    let r := add env st content (env.detect content)
    (Except.ok r.1, r.2.1, r.2.2)

/-! ### Startup load (`StoreService._load`, store.py lines 40-53) -/

/-- A persisted artifact as `_load` can encounter it: absent from disk,
present but failing to deserialise (`faiss.read_index` / `pickle.load`
raising), or loading successfully with value `v`. -/
inductive Artifact (α : Type) where
  | missing
  | corrupt
  | ok (v : α)

/-- Whether `Path.exists()` is true for the artifact. -/
def Artifact.existsOnDisk {α : Type} : Artifact α → Bool
  | Artifact.missing => false
  | _ => true

/-- Reading the artifact: `some v` on success, `none` when deserialisation
raises. -/
def Artifact.readValue {α : Type} : Artifact α → Option α
  | Artifact.ok v => some v
  | _ => none

/-- `StoreService._load`: when both files exist, try to read both inside one
`try`; any exception resets to fresh state; if either file is missing the
state is fresh as well.  No further validation is performed on a successful
read. -/
def load (indexArt : Artifact (List (List ℚ))) (metaArt : Artifact (List MetaEntry)) :
    StoreState :=
  if indexArt.existsOnDisk && metaArt.existsOnDisk then
    match indexArt.readValue, metaArt.readValue with
    | some i, some m => { index := some i, metadata := m }
    | _, _ => { index := none, metadata := [] }
  else
    { index := none, metadata := [] }

/-! ### Definitions written from the spec's words, for comparison with the
ones above -/

/-- The truncation step as the claim words it: word-boundary cut when the last
space's position is greater than OR EQUAL TO `L * T` (`T = 0.7`), with the
trailing-whitespace strip applied to the result at the end. -/
def claim_truncation_ge (text : List Char) (L : Nat) : List Char :=
  pyRstrip
    (if rfindSpace (text.take L) * 10 ≥ (L : Int) * 7 then
      (text.take L).take (rfindSpace (text.take L)).toNat
    else
      text.take L)

/-- The truncation step with the comparison amended to the code's strict
inequality: word-boundary cut only when the last space's position is strictly
greater than `L * T`. -/
def claim_truncation_strict (text : List Char) (L : Nat) : List Char :=
  pyRstrip
    (if rfindSpace (text.take L) * 10 > (L : Int) * 7 then
      (text.take L).take (rfindSpace (text.take L)).toNat
    else
      text.take L)

/-- The recovery policy the code actually implements: a successfully read
pair of artifacts is adopted as-is (no cardinality comparison); any missing
or unreadable artifact resets to the fresh empty state. -/
def load_amended_policy (indexArt : Artifact (List (List ℚ)))
    (metaArt : Artifact (List MetaEntry)) : StoreState :=
  match indexArt, metaArt with
  | Artifact.ok i, Artifact.ok m => { index := some i, metadata := m }
  | _, _ => { index := none, metadata := [] }

/-- The spec's lockstep invariant: the vector index and the metadata list
have the same cardinality, and record `i` carries vector handle `i`. -/
def Lockstep (st : StoreState) : Prop :=
  (st.index.getD []).length = st.metadata.length ∧
  ∀ i (h : i < st.metadata.length), (st.metadata.get ⟨i, h⟩).index = i

/-- Words as produced by `pySplit`: nonempty and whitespace-free. -/
def GoodWords (ws : List (List Char)) : Prop :=
  ∀ w ∈ ws, w ≠ [] ∧ ∀ c ∈ w, isPySpace c = false

instance : IsTotal SearchResult resultLE :=
  ⟨fun a b => by
    rcases lt_trichotomy a.score b.score with h | h | h
    · exact Or.inl (Or.inl h)
    · rcases le_total a.doc_id b.doc_id with h' | h'
      · exact Or.inl (Or.inr ⟨h, h'⟩)
      · exact Or.inr (Or.inr ⟨h.symm, h'⟩)
    · exact Or.inr (Or.inl h)⟩

instance : IsTrans SearchResult resultLE :=
  ⟨fun a b c hab hbc => by
    rcases hab with hab | ⟨hab, hab'⟩
    · rcases hbc with hbc | ⟨hbc, _⟩
      · exact Or.inl (hab.trans hbc)
      · exact Or.inl (lt_of_lt_of_le hab (le_of_eq hbc))
    · rcases hbc with hbc | ⟨hbc, hbc'⟩
      · exact Or.inl (lt_of_le_of_lt (le_of_eq hab) hbc)
      · exact Or.inr ⟨hab.trans hbc, hab'.trans hbc'⟩⟩

/-! ### Lemmas about Python string splitting and joining -/

/-- Defining equation of `splitAux` on the empty list. -/
theorem splitAux_nil (acc : List Char) :
    splitAux [] acc = if acc.isEmpty then [] else [acc.reverse] := rfl

/-- Defining equation of `splitAux` on a cons. -/
theorem splitAux_cons (c : Char) (cs acc : List Char) :
    splitAux (c :: cs) acc =
      if isPySpace c then
        (if acc.isEmpty then splitAux cs [] else acc.reverse :: splitAux cs [])
      else splitAux cs (c :: acc) := rfl

/-- Every word produced by `splitAux` from a whitespace-free accumulator is
nonempty and whitespace-free. -/
theorem splitAux_good (s : List Char) :
    ∀ (acc : List Char), (∀ c ∈ acc, isPySpace c = false) →
      ∀ w ∈ splitAux s acc, w ≠ [] ∧ ∀ c ∈ w, isPySpace c = false := by
  induction s with
  | nil =>
    intro acc hacc w hw
    rw [splitAux_nil] at hw
    by_cases h : acc.isEmpty = true
    · rw [if_pos h] at hw
      simp at hw
    · rw [if_neg h] at hw
      rw [List.mem_singleton] at hw
      subst hw
      refine ⟨?_, ?_⟩
      · intro hnil
        exact h (List.isEmpty_iff.mpr (by simpa using hnil))
      · intro c hc
        exact hacc c (List.mem_reverse.mp hc)
  | cons c cs ih =>
    intro acc hacc w hw
    rw [splitAux_cons] at hw
    by_cases hsp : isPySpace c = true
    · rw [if_pos hsp] at hw
      by_cases h : acc.isEmpty = true
      · rw [if_pos h] at hw
        exact ih [] (by simp) w hw
      · rw [if_neg h] at hw
        rcases List.mem_cons.mp hw with hw | hw
        · subst hw
          refine ⟨?_, ?_⟩
          · intro hnil
            exact h (List.isEmpty_iff.mpr (by simpa using hnil))
          · intro d hd
            exact hacc d (List.mem_reverse.mp hd)
        · exact ih [] (by simp) w hw
    · rw [if_neg hsp] at hw
      refine ih (c :: acc) ?_ w hw
      intro d hd
      rcases List.mem_cons.mp hd with hd | hd
      · subst hd; exact eq_false_of_ne_true hsp
      · exact hacc d hd

/-- Good words of `pySplit` itself. -/
theorem pySplit_good (s : List Char) : GoodWords (pySplit s) :=
  fun w hw => splitAux_good s [] (by simp) w hw

/-- Feeding a whitespace-free chunk into `splitAux` just extends the
accumulator. -/
theorem splitAux_append_nonspace :
    ∀ (w rest acc : List Char), (∀ c ∈ w, isPySpace c = false) →
      splitAux (w ++ rest) acc = splitAux rest (w.reverse ++ acc)
  | [], rest, acc, _ => by simp
  | c :: w', rest, acc, h => by
    have hc : ¬ isPySpace c = true := by
      rw [h c (by simp)]; exact Bool.false_ne_true
    show splitAux (c :: (w' ++ rest)) acc = _
    rw [splitAux_cons, if_neg hc,
      splitAux_append_nonspace w' rest (c :: acc) (fun d hd => h d (by simp [hd]))]
    simp [List.reverse_cons, List.append_assoc]

/-- Splitting the space-join of good words recovers the words. -/
theorem split_join : ∀ (ws : List (List Char)), GoodWords ws →
    pySplit (joinSpace ws) = ws
  | [], _ => rfl
  | [w], h => by
    have hw := h w (by simp)
    show splitAux (joinSpace [w]) [] = [w]
    have hjw : joinSpace [w] = w := rfl
    rw [hjw, ← List.append_nil w, splitAux_append_nonspace w [] [] hw.2,
      splitAux_nil]
    have : (w.reverse ++ ([] : List Char)).isEmpty = false := by
      simp [List.isEmpty_iff, hw.1]
    rw [this]
    simp
  | w :: v :: ws, h => by
    have hw := h w (by simp)
    have hrest : GoodWords (v :: ws) := fun x hx => h x (by simp [hx])
    show splitAux (joinSpace (w :: v :: ws)) [] = w :: v :: ws
    have hjw : joinSpace (w :: v :: ws) = w ++ ' ' :: joinSpace (v :: ws) := rfl
    rw [hjw, splitAux_append_nonspace w (' ' :: joinSpace (v :: ws)) [] hw.2,
      splitAux_cons]
    have hsp : isPySpace ' ' = true := rfl
    rw [if_pos hsp]
    have hne : (w.reverse ++ ([] : List Char)).isEmpty = false := by
      simp [List.isEmpty_iff, hw.1]
    rw [hne]
    have hrec := split_join (v :: ws) hrest
    show (if false = true then _ else _) = _
    rw [if_neg Bool.false_ne_true]
    unfold pySplit at hrec
    rw [hrec]
    simp

/-- Rstrip does nothing to a whitespace-free list. -/
theorem rstrip_of_nonspace (l : List Char) (h : ∀ c ∈ l, isPySpace c = false) :
    pyRstrip l = l := by
  unfold pyRstrip
  have hdw : l.reverse.dropWhile isPySpace = l.reverse := by
    cases hrev : l.reverse with
    | nil => simp
    | cons c t =>
      have hc : isPySpace c = false := by
        refine h c ?_
        rw [← List.mem_reverse, hrev]
        simp
      rw [List.dropWhile_cons, hc]
      simp
  rw [hdw, List.reverse_reverse]

/-- Rstrip over an append: when the right part strips to nothing the strip
continues into the left part, otherwise the left part is untouched. -/
theorem rstrip_append (u t : List Char) :
    pyRstrip (u ++ t) = if pyRstrip t = [] then pyRstrip u else u ++ pyRstrip t := by
  unfold pyRstrip
  rw [List.reverse_append, List.dropWhile_append]
  by_cases h : (t.reverse.dropWhile isPySpace).isEmpty = true
  · rw [if_pos h]
    have ht : t.reverse.dropWhile isPySpace = [] := List.isEmpty_iff.mp h
    rw [if_pos (by rw [ht]; rfl)]
  · rw [if_neg h]
    have ht : t.reverse.dropWhile isPySpace ≠ [] := fun hc => h (List.isEmpty_iff.mpr hc)
    rw [if_neg (by simpa using ht)]
    rw [List.reverse_append, List.reverse_reverse]

/-- The join of good words is empty only for the empty word list. -/
theorem joinSpace_ne_nil : ∀ (ws : List (List Char)), GoodWords ws → ws ≠ [] →
    joinSpace ws ≠ []
  | [], _, h => absurd rfl h
  | [w], h, _ => by
    have := (h w (by simp)).1
    simpa [joinSpace]
  | w :: v :: ws, _, _ => by
    show w ++ ' ' :: joinSpace (v :: ws) ≠ []
    simp

/-- Every whitespace character occurring in the join of good words is the
single separator space. -/
theorem join_chars : ∀ (ws : List (List Char)), GoodWords ws →
    ∀ c ∈ joinSpace ws, isPySpace c = true → c = ' '
  | [], _, c, hc, _ => absurd hc (by simp [joinSpace])
  | [w], h, c, hc, hsp => by
    have : isPySpace c = false := (h w (by simp)).2 c hc
    rw [this] at hsp
    exact absurd hsp Bool.false_ne_true
  | w :: v :: ws, h, c, hc, hsp => by
    have hmem : c ∈ w ++ ' ' :: joinSpace (v :: ws) := hc
    rcases List.mem_append.mp hmem with hw | hw
    · have : isPySpace c = false := (h w (by simp)).2 c hw
      rw [this] at hsp
      exact absurd hsp Bool.false_ne_true
    · rcases List.mem_cons.mp hw with hw | hw
      · exact hw
      · exact join_chars (v :: ws) (fun x hx => h x (by simp [hx])) c hw hsp

/-- Taking a prefix of the join of good words and stripping trailing
whitespace yields the join of (other) good words. -/
theorem rstrip_take_join :
    ∀ (ws : List (List Char)), GoodWords ws → ∀ (n : Nat),
      ∃ ws', GoodWords ws' ∧ pyRstrip ((joinSpace ws).take n) = joinSpace ws'
  | [], _, n => ⟨[], fun w hw => absurd hw (by simp), by simp [joinSpace, pyRstrip]⟩
  | [w], h, n => by
    have hw := h w (by simp)
    have hTake : ∀ c ∈ w.take n, isPySpace c = false :=
      fun c hc => hw.2 c (List.take_subset n w hc)
    show ∃ ws', GoodWords ws' ∧ pyRstrip (w.take n) = joinSpace ws'
    by_cases hn : w.take n = []
    · exact ⟨[], fun x hx => absurd hx (by simp), by simp [joinSpace, hn, pyRstrip]⟩
    · refine ⟨[w.take n], ?_, ?_⟩
      · intro x hx
        rw [List.mem_singleton] at hx
        subst hx
        exact ⟨hn, hTake⟩
      · rw [rstrip_of_nonspace _ hTake]
        rfl
  | w :: v :: ws, h, n => by
    have hw := h w (by simp)
    have hrest : GoodWords (v :: ws) := fun x hx => h x (by simp [hx])
    show ∃ ws', GoodWords ws' ∧
      pyRstrip ((w ++ ' ' :: joinSpace (v :: ws)).take n) = joinSpace ws'
    by_cases hn : n ≤ w.length
    · rw [List.take_append_of_le_length hn]
      have hTake : ∀ c ∈ w.take n, isPySpace c = false :=
        fun c hc => hw.2 c (List.take_subset n w hc)
      by_cases hnil : w.take n = []
      · exact ⟨[], fun x hx => absurd hx (by simp), by simp [joinSpace, hnil, pyRstrip]⟩
      · refine ⟨[w.take n], ?_, ?_⟩
        · intro x hx
          rw [List.mem_singleton] at hx
          subst hx
          exact ⟨hnil, hTake⟩
        · rw [rstrip_of_nonspace _ hTake]
          rfl
    · push_neg at hn
      obtain ⟨m, hm⟩ : ∃ m, n - w.length = m + 1 :=
        ⟨n - w.length - 1, by omega⟩
      have hsplit : (w ++ ' ' :: joinSpace (v :: ws)).take n
          = (w ++ [' ']) ++ (joinSpace (v :: ws)).take m := by
        rw [List.take_append_eq_append_take, List.take_of_length_le (le_of_lt hn), hm]
        simp [List.append_assoc]
      rw [hsplit, rstrip_append]
      obtain ⟨ws'', hgood'', heq''⟩ := rstrip_take_join (v :: ws) hrest m
      by_cases hnil : pyRstrip ((joinSpace (v :: ws)).take m) = []
      · rw [if_pos hnil, rstrip_append]
        have h1 : pyRstrip ([' '] : List Char) = [] := rfl
        rw [if_pos h1, rstrip_of_nonspace w hw.2]
        refine ⟨[w], ?_, rfl⟩
        intro x hx
        rw [List.mem_singleton] at hx
        subst hx
        exact hw
      · rw [if_neg hnil, heq'']
        have hne : ws'' ≠ [] := by
          intro h0
          rw [h0] at heq''
          exact hnil (by rw [heq'']; rfl)
        refine ⟨w :: ws'', ?_, ?_⟩
        · intro x hx
          rcases List.mem_cons.mp hx with hx | hx
          · subst hx; exact hw
          · exact hgood'' x hx
        · cases ws'' with
          | nil => exact absurd rfl hne
          | cons a b =>
            show (w ++ [' ']) ++ joinSpace (a :: b) = w ++ ' ' :: joinSpace (a :: b)
            simp

/-- Every formatted snippet is the space-join of good words. -/
theorem snippet_repr (l : List Char) (L : Nat) :
    ∃ ws, GoodWords ws ∧ format_snippet_chars l L = joinSpace ws := by
  unfold format_snippet_chars
  by_cases hlen : (normalize_text l).length ≤ L
  · rw [if_pos hlen]
    exact ⟨pySplit l, pySplit_good l, rfl⟩
  · rw [if_neg hlen]
    unfold truncate_at_word_boundary
    have htext : normalize_text l = joinSpace (pySplit l) := rfl
    by_cases hcond :
        rfindSpace ((normalize_text l).take L) * 10 > (L : Int) * 7
    · rw [if_pos hcond, List.take_take, htext]
      exact rstrip_take_join (pySplit l) (pySplit_good l) _
    · rw [if_neg hcond, htext]
      exact rstrip_take_join (pySplit l) (pySplit_good l) _

/-- Rstrip never lengthens a list. -/
theorem rstrip_length_le (l : List Char) : (pyRstrip l).length ≤ l.length := by
  unfold pyRstrip
  calc (l.reverse.dropWhile isPySpace).reverse.length
      = (l.reverse.dropWhile isPySpace).length := List.length_reverse _
    _ ≤ l.reverse.length := (List.dropWhile_sublist isPySpace).length_le
    _ = l.length := List.length_reverse l

/-- The formatted snippet never exceeds the requested maximum length. -/
theorem format_snippet_chars_length_le (l : List Char) (L : Nat) :
    (format_snippet_chars l L).length ≤ L := by
  unfold format_snippet_chars
  by_cases hlen : (normalize_text l).length ≤ L
  · rw [if_pos hlen]
    exact hlen
  · rw [if_neg hlen]
    unfold truncate_at_word_boundary
    by_cases hcond :
        rfindSpace ((normalize_text l).take L) * 10 > (L : Int) * 7
    · rw [if_pos hcond]
      calc (pyRstrip (((normalize_text l).take L).take _)).length
          ≤ (((normalize_text l).take L).take _).length := rstrip_length_le _
        _ ≤ L := by simp only [List.length_take]; omega
    · rw [if_neg hcond]
      calc (pyRstrip ((normalize_text l).take L)).length
          ≤ ((normalize_text l).take L).length := rstrip_length_le _
        _ ≤ L := by simp [List.length_take]

/-! ### Claim theorems: snippet formatting -/

/-- C9: for every input string and `L = 160`, the formatted snippet has
length at most 160, contains no newline or carriage-return character, and
equals the whitespace-collapsed input verbatim whenever the collapsed
input's length is at most 160. -/
theorem snippet_contract (s : String) :
    (format_snippet s 160).length ≤ 160 ∧
    '\n' ∉ (format_snippet s 160).data ∧
    '\r' ∉ (format_snippet s 160).data ∧
    ((normalize_text s.data).length ≤ 160 →
      format_snippet s 160 = String.mk (normalize_text s.data)) := by
  obtain ⟨ws, hgood, hrepr⟩ := snippet_repr s.data 160
  have hdata : (format_snippet s 160).data = format_snippet_chars s.data 160 := rfl
  refine ⟨?_, ?_, ?_, ?_⟩
  · show (format_snippet_chars s.data 160).length ≤ 160
    exact format_snippet_chars_length_le s.data 160
  · intro hmem
    rw [hdata, hrepr] at hmem
    have := join_chars ws hgood '\n' hmem (by decide)
    exact absurd this (by decide)
  · intro hmem
    rw [hdata, hrepr] at hmem
    have := join_chars ws hgood '\r' hmem (by decide)
    exact absurd this (by decide)
  · intro hlen
    simp only [format_snippet, format_snippet_chars]
    rw [if_pos hlen]

/-- Witness for `snippet_contract` at the concrete input `"a  b\nc"`. -/
theorem snippet_contract_witness :
    (format_snippet "a  b\nc" 160).length ≤ 160 ∧
    '\n' ∉ (format_snippet "a  b\nc" 160).data ∧
    '\r' ∉ (format_snippet "a  b\nc" 160).data ∧
    format_snippet "a  b\nc" 160 = String.mk (normalize_text (String.data "a  b\nc")) :=
  ⟨(snippet_contract "a  b\nc").1, (snippet_contract "a  b\nc").2.1,
    (snippet_contract "a  b\nc").2.2.1,
    (snippet_contract "a  b\nc").2.2.2 (by decide)⟩

/-- C10: snippet formatting is idempotent at `L = 160`. -/
theorem format_snippet_idempotent (s : String) :
    format_snippet (format_snippet s 160) 160 = format_snippet s 160 := by
  obtain ⟨ws, hgood, hrepr⟩ := snippet_repr s.data 160
  have hdata : (format_snippet s 160).data = format_snippet_chars s.data 160 := rfl
  have hlen : (joinSpace ws).length ≤ 160 := by
    rw [← hrepr]
    exact format_snippet_chars_length_le s.data 160
  have hnorm : normalize_text (joinSpace ws) = joinSpace ws := by
    unfold normalize_text
    rw [split_join ws hgood]
  have houter : format_snippet_chars (joinSpace ws) 160 = joinSpace ws := by
    simp only [format_snippet_chars]
    rw [hnorm, if_pos hlen]
  show String.mk (format_snippet_chars (format_snippet s 160).data 160) = format_snippet s 160
  rw [hdata, hrepr, houter]
  exact congrArg String.mk hrepr.symm

set_option maxRecDepth 100000 in
/-- C8 counterexample: at the input of 112 `a`s, one space and 100 `b`s the
collapsed text is longer than 160 and the last space of the 160-character
prefix sits exactly at position 112 = 160 * 0.7; the claim's rule (cut at
the space when its position is greater than or equal to the threshold)
disagrees with what the code computes, which is the mid-word cut. -/
theorem snippet_threshold_counterexample :
    (normalize_text (List.replicate 112 'a' ++ ' ' :: List.replicate 100 'b')).length > 160 ∧
    format_snippet_chars (List.replicate 112 'a' ++ ' ' :: List.replicate 100 'b') 160 ≠
      claim_truncation_ge
        (normalize_text (List.replicate 112 'a' ++ ' ' :: List.replicate 100 'b')) 160 := by
  constructor
  · decide
  · decide

/-- C8 amended: when the collapsed text is longer than `L`, the snippet is
obtained by taking the first `L` characters, cutting at the last space of
that prefix when that space's position is STRICTLY greater than `L * T`
(`T = 0.7`), cutting at exactly `L` otherwise, and stripping trailing
whitespace from the result. -/
theorem snippet_truncation_amended (s : String) (L : Nat)
    (h : (normalize_text s.data).length > L) :
    format_snippet s L = String.mk (claim_truncation_strict (normalize_text s.data) L) := by
  have hchars : format_snippet_chars s.data L
      = claim_truncation_strict (normalize_text s.data) L := by
    simp only [format_snippet_chars]
    rw [if_neg (not_le_of_gt h)]
    simp only [truncate_at_word_boundary, claim_truncation_strict]
    by_cases hcond : rfindSpace ((normalize_text s.data).take L) * 10 > (L : Int) * 7
    · rw [if_pos hcond, if_pos hcond]
    · rw [if_neg hcond, if_neg hcond]
  exact congrArg String.mk hchars

/-- Witness for `snippet_truncation_amended` at `"aaa bbb"` and `L = 5`. -/
theorem snippet_truncation_amended_witness :
    (normalize_text (String.data "aaa bbb")).length > 5 ∧
    format_snippet "aaa bbb" 5 =
      String.mk (claim_truncation_strict (normalize_text (String.data "aaa bbb")) 5) :=
  ⟨by decide, snippet_truncation_amended "aaa bbb" 5 (by decide)⟩

/-! ### Claim theorems: ingest validation and startup load -/

/-- C4: content that is empty or entirely whitespace is rejected with the
empty-content error synchronously, before any side effect: the state is
returned unchanged and no hash computation, embedding call, index or
metadata mutation, or persistence write takes place. -/
theorem empty_content_rejected (env : Env) (st : StoreState) (content : String)
    (h : content.data.all isPySpace = true) :
    process_content env st content =
      (Except.error IngestError.emptyContent, st,
        { hashCalls := 0, embedCalls := 0, saves := 0 }) := by
  unfold process_content
  rw [if_pos h]

/-- Witness for `empty_content_rejected` at the whitespace-only input. -/
theorem empty_content_rejected_witness :
    (String.data "  \n\t ").all isPySpace = true ∧
    process_content
        { hash := fun s => s, embed := fun _ => [0], detect := fun _ => "en" }
        { index := none, metadata := [] } "  \n\t " =
      (Except.error IngestError.emptyContent,
        ({ index := none, metadata := [] } : StoreState),
        { hashCalls := 0, embedCalls := 0, saves := 0 }) :=
  ⟨by decide, empty_content_rejected _ _ _ (by decide)⟩

/-- C3 counterexample: an index artifact holding one vector and a metadata
artifact holding zero records both load successfully; their cardinalities
differ, yet `_load` adopts both sides instead of resetting to the fresh
empty state. -/
theorem load_mismatch_adopted_counterexample :
    load (Artifact.ok [[(1 : ℚ)]]) (Artifact.ok []) =
      { index := some [[(1 : ℚ)]], metadata := [] } ∧
    ([[(1 : ℚ)]] : List (List ℚ)).length ≠ ([] : List MetaEntry).length ∧
    load (Artifact.ok [[(1 : ℚ)]]) (Artifact.ok []) ≠ { index := none, metadata := [] } := by
  refine ⟨rfl, by decide, ?_⟩
  intro h
  exact Option.noConfusion (congrArg StoreState.index h)

/-- C3 amended: on startup the store resets to the fresh empty state exactly
when an artifact is missing or fails to load; a successfully loaded pair is
adopted as-is, with no cardinality comparison. -/
theorem load_amended (indexArt : Artifact (List (List ℚ)))
    (metaArt : Artifact (List MetaEntry)) :
    load indexArt metaArt = load_amended_policy indexArt metaArt := by
  cases indexArt <;> cases metaArt <;> rfl

/-! ### Claim theorems: the write path -/

/-- Unfolding of `add` on fresh content (no record with the content's hash). -/
theorem add_fresh (env : Env) (st : StoreState) (content language : String)
    (hnone : find_existing_content st (env.hash content) = none) :
    add env st content language =
      ({ doc_id := "doc_" ++ toString st.metadata.length, hash := env.hash content,
         added := true },
       { index := some (st.index.getD [] ++ [env.embed content]),
         metadata := st.metadata ++
           [{ doc_id := "doc_" ++ toString st.metadata.length,
              hash := env.hash content, language := language, content := content,
              index := st.metadata.length }] },
       { hashCalls := 1, embedCalls := 1, saves := 1 }) := by
  cases hidx : st.index with
  | none =>
    simp [add, hnone, initialize_index_if_needed, create_metadata_entry, hidx]
  | some v =>
    simp [add, hnone, initialize_index_if_needed, create_metadata_entry, hidx]

/-- Finding by hash after appending an entry with that hash, when no earlier
entry had it. -/
theorem find?_append_singleton (md : List MetaEntry) (h : String) (entry : MetaEntry)
    (hnone : md.find? (fun m => m.hash = h) = none) (hhash : entry.hash = h) :
    (md ++ [entry]).find? (fun m => m.hash = h) = some entry := by
  rw [List.find?_append, hnone]
  simp [hhash]

/-- C2: when a record with the content's hash exists, `add` returns that
record's `doc_id` with `added = false`, leaves the state (index, metadata,
hence `Size()`) unchanged and performs no embedding call and no persistence
write; on fresh content, adding twice yields the same `doc_id` with
`added = true` then `added = false`, and `Size()` grows by exactly one in
total. -/
theorem add_idempotent (env : Env) (st : StoreState) (content language : String) :
    (∀ m, find_existing_content st (env.hash content) = some m →
      add env st content language =
        ({ doc_id := m.doc_id, hash := env.hash content, added := false }, st,
          { hashCalls := 1, embedCalls := 0, saves := 0 })) ∧
    (find_existing_content st (env.hash content) = none →
      (add env st content language).1.added = true ∧
      (add env (add env st content language).2.1 content language).1.added = false ∧
      (add env (add env st content language).2.1 content language).1.doc_id =
        (add env st content language).1.doc_id ∧
      (add env (add env st content language).2.1 content language).2.1 =
        (add env st content language).2.1 ∧
      (add env (add env st content language).2.1 content language).2.2 =
        { hashCalls := 1, embedCalls := 0, saves := 0 } ∧
      get_size (add env st content language).2.1 = get_size st + 1) := by
  constructor
  · intro m hm
    simp [add, hm]
  · intro hnone
    have hfirst := add_fresh env st content language hnone
    rw [hfirst]
    have hfind2 : find_existing_content
        { index := some (st.index.getD [] ++ [env.embed content]),
          metadata := st.metadata ++
            [{ doc_id := "doc_" ++ toString st.metadata.length,
               hash := env.hash content, language := language, content := content,
               index := st.metadata.length }] } (env.hash content) =
        some { doc_id := "doc_" ++ toString st.metadata.length,
               hash := env.hash content, language := language, content := content,
               index := st.metadata.length } := by
      show (st.metadata ++ [_]).find? _ = _
      exact find?_append_singleton st.metadata (env.hash content) _ hnone rfl
    refine ⟨rfl, ?_, ?_, ?_, ?_, ?_⟩
    · simp [add, hfind2]
    · simp [add, hfind2]
    · simp [add, hfind2]
    · simp [add, hfind2]
    · simp [get_size]

/-- Witness for `add_idempotent` on the empty store. -/
theorem add_idempotent_witness :
    find_existing_content { index := none, metadata := [] }
        (Env.hash { hash := fun s => s, embed := fun _ => [0], detect := fun _ => "en" }
          "hello") = none ∧
    (add { hash := fun s => s, embed := fun _ => [0], detect := fun _ => "en" }
        { index := none, metadata := [] } "hello" "en").1.added = true ∧
    get_size (add { hash := fun s => s, embed := fun _ => [0], detect := fun _ => "en" }
        { index := none, metadata := [] } "hello" "en").2.1 =
      get_size { index := none, metadata := [] } + 1 := by
  have h := (add_idempotent
    { hash := fun s => s, embed := fun _ => [0], detect := fun _ => "en" }
    { index := none, metadata := [] } "hello" "en").2 rfl
  exact ⟨rfl, h.1, h.2.2.2.2.2⟩

/-- Appending an entry whose handle is the list's length preserves the
handle-equals-position invariant. -/
theorem lockstep_append (md : List MetaEntry) (entry : MetaEntry)
    (hmd : ∀ i (h : i < md.length), (md.get ⟨i, h⟩).index = i)
    (hentry : entry.index = md.length) :
    ∀ i (h : i < (md ++ [entry]).length), ((md ++ [entry]).get ⟨i, h⟩).index = i := by
  intro i h
  rcases Nat.lt_or_ge i md.length with hi | hi
  · have heq : (md ++ [entry]).get ⟨i, h⟩ = md.get ⟨i, hi⟩ := by
      rw [List.get_eq_getElem, List.get_eq_getElem]
      exact List.getElem_append_left hi
    rw [heq]
    exact hmd i hi
  · have hieq : i = md.length := by
      have h' : i < md.length + 1 := by simpa using h
      omega
    have heq : (md ++ [entry]).get ⟨i, h⟩ = entry := by
      rw [List.get_eq_getElem]
      exact List.getElem_concat_length md entry i hieq _
    rw [heq, hieq, hentry]

/-- C7: every metadata record's `index` (vector handle) equals its 0-based
position, and the index and the metadata list stay in lockstep (same
cardinality) across every `add`; fresh content is appended as a record whose
`doc_id` is the prefix followed by the record count taken before the append
and whose handle is that same ordinal. -/
theorem add_lockstep (env : Env) (st : StoreState) (content language : String) :
    (Lockstep st → Lockstep (add env st content language).2.1) ∧
    (find_existing_content st (env.hash content) = none →
      ∃ entry, (add env st content language).2.1.metadata = st.metadata ++ [entry] ∧
        entry.doc_id = "doc_" ++ toString st.metadata.length ∧
        entry.index = st.metadata.length) := by
  constructor
  · intro hlock
    cases hfind : find_existing_content st (env.hash content) with
    | some m =>
      have hstate : (add env st content language).2.1 = st := by
        simp [add, hfind]
      rw [hstate]
      exact hlock
    | none =>
      rw [add_fresh env st content language hfind]
      refine ⟨?_, ?_⟩
      · simp [hlock.1]
      · exact lockstep_append st.metadata
          { doc_id := "doc_" ++ toString st.metadata.length,
            hash := env.hash content, language := language, content := content,
            index := st.metadata.length } hlock.2 rfl
  · intro hnone
    rw [add_fresh env st content language hnone]
    exact ⟨_, rfl, rfl, rfl⟩

/-- Witness for `add_lockstep`: one `add` on the freshly initialised empty
store. -/
theorem add_lockstep_witness :
    Lockstep (add { hash := fun s => s, embed := fun _ => [0], detect := fun _ => "en" }
      { index := none, metadata := [] } "hello" "en").2.1 ∧
    ∃ entry,
      (add { hash := fun s => s, embed := fun _ => [0], detect := fun _ => "en" }
        { index := none, metadata := [] } "hello" "en").2.1.metadata = [] ++ [entry] ∧
      entry.doc_id = "doc_" ++ toString (List.length ([] : List MetaEntry)) ∧
      entry.index = List.length ([] : List MetaEntry) := by
  have h := add_lockstep
    { hash := fun s => s, embed := fun _ => [0], detect := fun _ => "en" }
    { index := none, metadata := [] } "hello" "en"
  refine ⟨h.1 ⟨rfl, fun i hi => by simp at hi⟩, h.2 rfl⟩

/-! ### Claim theorems: the read path -/

/-- C5: the search result list never exceeds `min k (Size())`, and on a
store with zero records the result is `[]` for every `k` and every index
capability (the index is never consulted). -/
theorem search_bounded (oracle : List ℚ → Nat → List (ℚ × Int)) (st : StoreState)
    (query : List ℚ) (k : Nat)
    (hlen : ∀ n, (oracle query n).length ≤ n) :
    (search oracle st query k).length ≤ min k (get_size st) ∧
    (get_size st = 0 → search oracle st query k = []) := by
  constructor
  · simp only [search]
    by_cases hcond : st.index = none ∨ st.metadata.length = 0
    · rw [if_pos hcond]
      simp
    · rw [if_neg hcond]
      have hfl := List.length_filterMap_le (search_candidate st)
        (oracle query (min (k * SEARCH_K_MULTIPLIER) st.metadata.length))
      have horacle := hlen (min (k * SEARCH_K_MULTIPLIER) st.metadata.length)
      have hsort := (List.perm_insertionSort resultLE
        ((oracle query (min (k * SEARCH_K_MULTIPLIER) st.metadata.length)).filterMap
          (search_candidate st))).length_eq
      rw [List.length_take, hsort]
      show min k _ ≤ min k st.metadata.length
      omega
  · intro hsize
    have hmd : st.metadata.length = 0 := hsize
    simp only [search]
    rw [if_pos (Or.inr hmd)]

/-- Witness for `search_bounded` on the empty store with the trivial index
capability. -/
theorem search_bounded_witness :
    (search (fun _ _ => []) { index := none, metadata := [] } [0] 3).length ≤
      min 3 (get_size { index := none, metadata := [] }) ∧
    (get_size ({ index := none, metadata := [] } : StoreState) = 0 →
      search (fun _ _ => []) { index := none, metadata := [] } [0] 3 = []) :=
  search_bounded (fun _ _ => []) { index := none, metadata := [] } [0] 3
    (fun n => Nat.zero_le n)

/-- Two sorted lists that are permutations of each other are equal, provided
the order relation is antisymmetric on the elements actually present. -/
theorem sorted_perm_antisymm_eq {α : Type} {r : α → α → Prop} :
    ∀ {l₁ l₂ : List α}, (∀ a ∈ l₁, ∀ b ∈ l₁, r a b → r b a → a = b) →
      List.Perm l₁ l₂ → l₁.Sorted r → l₂.Sorted r → l₁ = l₂ := by
  intro l₁
  induction l₁ with
  | nil =>
    intro l₂ _ hp _ _
    exact (List.Perm.eq_nil hp.symm).symm
  | cons a t ih =>
    intro l₂ hanti hp hs₁ hs₂
    cases l₂ with
    | nil => exact absurd (List.Perm.eq_nil hp) (by simp)
    | cons b t₂ =>
      have hab : a = b := by
        have ha2 : a ∈ b :: t₂ := hp.subset (List.mem_cons_self a t)
        rcases List.mem_cons.mp ha2 with h1 | h1
        · exact h1
        · have hb1 : b ∈ a :: t := hp.symm.subset (List.mem_cons_self b t₂)
          rcases List.mem_cons.mp hb1 with h2 | h2
          · exact h2.symm
          · have hrab : r a b := (List.sorted_cons.mp hs₁).1 b h2
            have hrba : r b a := (List.sorted_cons.mp hs₂).1 a h1
            exact hanti a (List.mem_cons_self a t)
              b (List.mem_cons.mpr (Or.inr h2)) hrab hrba
      subst hab
      have ht : t = t₂ := ih
        (fun x hx y hy => hanti x (List.mem_cons.mpr (Or.inr hx))
          y (List.mem_cons.mpr (Or.inr hy)))
        hp.cons_inv (List.sorted_cons.mp hs₁).2 (List.sorted_cons.mp hs₂).2
      rw [ht]

/-- Inversion for `search_candidate`: a produced result is the join of a
stored metadata entry with the candidate's distance. -/
theorem search_candidate_some (st : StoreState) (c : ℚ × Int) (a : SearchResult)
    (h : search_candidate st c = some a) :
    ∃ meta ∈ st.metadata, a = build_search_result meta c.1 := by
  unfold search_candidate at h
  by_cases hv : is_valid_index st c.2 = true
  · rw [if_pos hv] at h
    cases hg : st.metadata.get? c.2.toNat with
    | none =>
      rw [hg] at h
      exact absurd h (by simp)
    | some meta =>
      rw [hg] at h
      exact ⟨meta, List.get?_mem hg, (Option.some.inj h).symm⟩
  · rw [if_neg hv] at h
    exact absurd h (by simp)

/-- Antisymmetry content of the sort key `(score, doc_id)`. -/
theorem resultLE_antisymm_fields {a b : SearchResult}
    (hab : resultLE a b) (hba : resultLE b a) :
    a.score = b.score ∧ a.doc_id = b.doc_id := by
  rcases hab with h1 | ⟨h1, h1'⟩ <;> rcases hba with h2 | ⟨h2, h2'⟩
  · exact absurd (h1.trans h2) (lt_irrefl _)
  · exact absurd (h2 ▸ h1) (lt_irrefl _)
  · exact absurd (h1 ▸ h2) (lt_irrefl _)
  · exact ⟨h1, le_antisymm h1' h2'⟩

/-- C6: search is deterministic for a fixed corpus, including on ties: two
runs whose index capability returns the same candidate multiset (in possibly
different, unspecified tie order) produce bit-identical ordered output;
distinct records are assumed to carry distinct `doc_id`s (the invariant of
C7). -/
theorem search_deterministic (st : StoreState) (query : List ℚ) (k : Nat)
    (oracle₁ oracle₂ : List ℚ → Nat → List (ℚ × Int))
    (hnodup : (st.metadata.map MetaEntry.doc_id).Nodup)
    (hperm : List.Perm
      (oracle₁ query (min (k * SEARCH_K_MULTIPLIER) st.metadata.length))
      (oracle₂ query (min (k * SEARCH_K_MULTIPLIER) st.metadata.length))) :
    search oracle₁ st query k = search oracle₂ st query k := by
  simp only [search]
  by_cases hcond : st.index = none ∨ st.metadata.length = 0
  · rw [if_pos hcond, if_pos hcond]
  · rw [if_neg hcond, if_neg hcond]
    congr 1
    have hpermr := hperm.filterMap (search_candidate st)
    refine sorted_perm_antisymm_eq ?_
      ((List.perm_insertionSort resultLE _).trans
        (hpermr.trans (List.perm_insertionSort resultLE _).symm))
      (List.sorted_insertionSort resultLE _) (List.sorted_insertionSort resultLE _)
    intro a ha b hb hab hba
    rw [List.mem_insertionSort, List.mem_filterMap] at ha hb
    obtain ⟨ca, hca, hsa⟩ := ha
    obtain ⟨cb, hcb, hsb⟩ := hb
    obtain ⟨ma, hma, haeq⟩ := search_candidate_some st ca a hsa
    obtain ⟨mb, hmb, hbeq⟩ := search_candidate_some st cb b hsb
    obtain ⟨hscore, hdoc⟩ := resultLE_antisymm_fields hab hba
    have hmeq : ma = mb := by
      apply List.inj_on_of_nodup_map hnodup hma hmb
      have h1 : a.doc_id = ma.doc_id := by rw [haeq]; rfl
      have h2 : b.doc_id = mb.doc_id := by rw [hbeq]; rfl
      rw [← h1, ← h2, hdoc]
    subst hmeq
    have hd : ca.1 = cb.1 := by
      have h1 : a.score = ca.1 := by rw [haeq]; rfl
      have h2 : b.score = cb.1 := by rw [hbeq]; rfl
      rw [← h1, ← h2, hscore]
    rw [haeq, hbeq, hd]

/-- Witness for `search_deterministic`: a two-record store queried through
two index capabilities returning the same candidates in opposite order. -/
theorem search_deterministic_witness :
    ((List.map MetaEntry.doc_id
      [{ doc_id := "doc_0", hash := "h0", language := "en", content := "alpha", index := 0 },
       { doc_id := "doc_1", hash := "h1", language := "en", content := "beta", index := 1 }]).Nodup) ∧
    search (fun _ _ => [((1 : ℚ), (0 : Int)), ((1 : ℚ), (1 : Int))])
      { index := some [[0], [1]],
        metadata :=
          [{ doc_id := "doc_0", hash := "h0", language := "en", content := "alpha", index := 0 },
           { doc_id := "doc_1", hash := "h1", language := "en", content := "beta", index := 1 }] }
      [0] 1 =
    search (fun _ _ => [((1 : ℚ), (1 : Int)), ((1 : ℚ), (0 : Int))])
      { index := some [[0], [1]],
        metadata :=
          [{ doc_id := "doc_0", hash := "h0", language := "en", content := "alpha", index := 0 },
           { doc_id := "doc_1", hash := "h1", language := "en", content := "beta", index := 1 }] }
      [0] 1 :=
  ⟨by decide,
    search_deterministic _ [0] 1 _ _ (by decide) (by decide)⟩

/-! ### Claim theorem: the ordering the retrieve endpoint actually returns -/

/-- C1 evaluation at the failing input: a two-record corpus whose candidates
come back from the index with ascending distances 1 and 2 ends up in the
HTTP response sorted by the key `(-score, doc_id)` of retrieve.py line 104,
i.e. with scores DESCENDING (2 before 1), violating the claimed
`score[i] <= score[i+1]` ordering invariant. -/
theorem retrieve_descending_at_failing_input :
    retrieve { hash := fun s => s, embed := fun _ => [0], detect := fun _ => "en" }
      (fun _ _ => [((1 : ℚ), (0 : Int)), ((2 : ℚ), (1 : Int))])
      { index := some [[0], [1]],
        metadata :=
          [{ doc_id := "doc_0", hash := "h0", language := "en", content := "alpha", index := 0 },
           { doc_id := "doc_1", hash := "h1", language := "en", content := "beta", index := 1 }] }
      "query" 2 =
      [{ doc_id := "doc_1", score := 2, snippet := "beta", language := "en" },
       { doc_id := "doc_0", score := 1, snippet := "alpha", language := "en" }] ∧
    (retrieve { hash := fun s => s, embed := fun _ => [0], detect := fun _ => "en" }
      (fun _ _ => [((1 : ℚ), (0 : Int)), ((2 : ℚ), (1 : Int))])
      { index := some [[0], [1]],
        metadata :=
          [{ doc_id := "doc_0", hash := "h0", language := "en", content := "alpha", index := 0 },
           { doc_id := "doc_1", hash := "h1", language := "en", content := "beta", index := 1 }] }
      "query" 2).map RetrieveResult.score = [2, 1] ∧
    ¬ ((2 : ℚ) ≤ (1 : ℚ)) := by
  refine ⟨?_, ?_, ?_⟩
  · decide
  · decide
  · decide
